import Mathlib

/-!
Shallow embedding of `project_2_image_captioning/model.py`: an image-captioning
model made of `EncoderCNN` (a frozen pretrained backbone plus a trainable linear
projection) and `DecoderRNN` (word embedding, LSTM, linear head) with a
teacher-forced `forward` and a greedy autoregressive `sample`.

Vectors are `List α` over a linearly ordered commutative ring `α`, so every
theorem holds at `α = ℝ` (the spec's real-valued scores) and at `α = ℤ`, where
concrete runs evaluate by kernel reduction.  The LSTM cell (`torch.nn.LSTM`)
and the resnet backbone are external library components consumed by the
repository's code, so they are embedded as abstract functions carried inside
the module structures (part of the "weight snapshot"); `nn.Linear`,
`nn.Embedding` and `torch.max` are embedded concretely.
-/

set_option autoImplicit false

/-- Dot product of two vectors; extra coordinates of the longer vector are
ignored (both operands have matching length in well-formed calls). -/
def dot {α : Type} [LinearOrderedCommRing α] : List α → List α → α
  | [], _ => 0
  | _, [] => 0
  | x :: xs, y :: ys => x * y + dot xs ys

/-- Embedding of `torch.nn.Linear`: output coordinate `j` is `W_j ⬝ x + b_j`,
one per (weight-row, bias) pair. -/
def linearApply {α : Type} [LinearOrderedCommRing α] (W : List (List α))
    (b : List α) (x : List α) : List α :=
  (W.zip b).map (fun wb => dot wb.1 x + wb.2)

/-- Embedding of `torch.nn.Embedding` applied to one index: row `idx` of the
lookup table (out-of-range indices give `[]`; sampling never produces one). -/
def embedLookup {α : Type} (table : List (List α)) (idx : Nat) : List α :=
  table.getD idx []

/-- Embedding of `torch.max(v, dim)` on one row: the maximal value together
with the index of its first occurrence (`torch.max` returns the first maximal
index), or `none` on the empty row. -/
def torchMax {α : Type} [LinearOrderedCommRing α] : List α → Option (α × Nat)
  | [] => none
  | x :: xs =>
    match torchMax xs with
    | none => some (x, 0)
    | some (m, i) => if x < m then some (m, i + 1) else some (x, 0)

/-- Index component of `torchMax` (the greedy-argmax choice). -/
def torchArgmax {α : Type} [LinearOrderedCommRing α] (l : List α) : Nat :=
  ((torchMax l).getD (0, 0)).2

/-- Embedding of `DecoderRNN.__init__`: the learned state of the decoder.
`σ` is the type of the LSTM hidden/cell state; `lstmStep` is one application
of the (multi-layer) LSTM to a single timestep, and `lstmZero` is the
zero-initialized state `torch.nn.LSTM` uses when `states=None`. -/
structure DecoderRNN (α : Type) (σ : Type) where
  word_embedding_layer : List (List α)
  lstmZero : σ
  lstmStep : List α → σ → List α × σ
  linear_fc_weight : List (List α)
  linear_fc_bias : List α

/-- Running `torch.nn.LSTM` over a whole input sequence (`batch_first`, one
sample): iterate the cell, collecting one hidden output per timestep. -/
def lstmSeq {α σ : Type} (M : DecoderRNN α σ) :
    List (List α) → σ → List (List α)
  | [], _ => []
  | x :: xs, s =>
    let hs := M.lstmStep x s
    hs.1 :: lstmSeq M xs hs.2

/-- Embedding of `DecoderRNN.forward` for one sample of the batch
(batch rows are processed independently by every layer involved):
drop the final caption token, embed the rest, prepend the image features
as the first timestep, run the LSTM once from the zero state, and project
every hidden output through the linear head. -/
def DecoderRNN.forward {α σ : Type} [LinearOrderedCommRing α]
    (M : DecoderRNN α σ) (features : List α) (captions : List Nat) :
    List (List α) :=
  let captions' := captions.dropLast
  let embedded := captions'.map (embedLookup M.word_embedding_layer)
  let inputs := features :: embedded
  let lstm_output := lstmSeq M inputs M.lstmZero
  lstm_output.map (linearApply M.linear_fc_weight M.linear_fc_bias)

/-- Embedding of `DecoderRNN.forward` on a whole batch: the score tensor
`[batch, seq_len, vocab]`, row by row. -/
def DecoderRNN.forwardBatch {α σ : Type} [LinearOrderedCommRing α]
    (M : DecoderRNN α σ) (features : List (List α))
    (captions : List (List Nat)) : List (List (List α)) :=
  (features.zip captions).map (fun fc => M.forward fc.1 fc.2)

/-- Scores computed inside one iteration of the sampling loop from the current
`(inputs, states)` pair: LSTM step, then the linear head. -/
def DecoderRNN.stepScores {α σ : Type} [LinearOrderedCommRing α]
    (M : DecoderRNN α σ) (p : List α × σ) : List α :=
  linearApply M.linear_fc_weight M.linear_fc_bias (M.lstmStep p.1 p.2).1

/-- Token predicted by one iteration of the sampling loop. -/
def DecoderRNN.stepPred {α σ : Type} [LinearOrderedCommRing α]
    (M : DecoderRNN α σ) (p : List α × σ) : Nat :=
  torchArgmax (M.stepScores p)

/-- The `(inputs, states)` pair the sampling loop hands to its next iteration:
the word embedding of the predicted token, and the updated LSTM state. -/
def DecoderRNN.nextPair {α σ : Type} [LinearOrderedCommRing α]
    (M : DecoderRNN α σ) (p : List α × σ) : List α × σ :=
  (embedLookup M.word_embedding_layer (M.stepPred p), (M.lstmStep p.1 p.2).2)

/-- Embedding of the `for i in range(max_len)` loop of `DecoderRNN.sample`:
each iteration appends the greedy prediction, breaks right after appending it
when it equals the end-token index `1`, and otherwise feeds the prediction's
word embedding into the next iteration. -/
def DecoderRNN.sampleGo {α σ : Type} [LinearOrderedCommRing α]
    (M : DecoderRNN α σ) : Nat → List α × σ → List Nat
  | 0, _ => []
  | n + 1, p =>
    let predicted := M.stepPred p
    if predicted = 1 then [predicted]
    else predicted :: M.sampleGo n (M.nextPair p)

/-- The initial `(inputs, states)` pair of a `sample` call: `states=None`
makes `torch.nn.LSTM` start from the zero state. -/
def DecoderRNN.initPair {α σ : Type} (M : DecoderRNN α σ) (inputs : List α)
    (states : Option σ) : List α × σ :=
  (inputs, states.getD M.lstmZero)

/-- Embedding of `DecoderRNN.sample` (the Python default for `max_len` is 20);
returns the list of plain integer token indices. -/
def DecoderRNN.sample {α σ : Type} [LinearOrderedCommRing α]
    (M : DecoderRNN α σ) (inputs : List α) (states : Option σ)
    (max_len : Nat) : List Nat :=
  M.sampleGo max_len (M.initPair inputs states)

/-- Scores the sampling loop computes at step `k` (0-based) when started from
the pair `p`, were the loop to reach that step. -/
def DecoderRNN.scoresAt {α σ : Type} [LinearOrderedCommRing α]
    (M : DecoderRNN α σ) (p : List α × σ) (k : Nat) : List α :=
  M.stepScores ((M.nextPair)^[k] p)

/-- Greedy-argmax prediction the sampling loop makes at step `k` (0-based)
when started from the pair `p`, were the loop to reach that step. -/
def DecoderRNN.predAt {α σ : Type} [LinearOrderedCommRing α]
    (M : DecoderRNN α σ) (p : List α × σ) (k : Nat) : Nat :=
  torchArgmax (M.scoresAt p k)

/-- Concrete decoder used to evaluate the theorems: the LSTM state is trivial,
the cell is the identity on its input, and the linear head scores token `0`
with the input's first coordinate, token `1` with `0`; it therefore always
predicts token `0`. -/
def decAlwaysZero : DecoderRNN ℤ Unit where
  word_embedding_layer := [[1], [1]]
  lstmZero := ()
  lstmStep := fun x _ => (x, ())
  linear_fc_weight := [[1], [0]]
  linear_fc_bias := [0, 0]

/-- Concrete decoder that always predicts the end token `1`: the linear head
scores token `0` with `0` and token `1` with the input's first coordinate. -/
def decAlwaysEnd : DecoderRNN ℤ Unit where
  word_embedding_layer := [[1], [1]]
  lstmZero := ()
  lstmStep := fun x _ => (x, ())
  linear_fc_weight := [[0], [1]]
  linear_fc_bias := [0, 0]


theorem torchMax_eq_none_iff {α : Type} [LinearOrderedCommRing α]
    (l : List α) : torchMax l = none ↔ l = [] := by
  cases l with
  | nil => simp [torchMax]
  | cons x xs =>
    simp only [torchMax]
    cases hxs : torchMax xs with
    | none => simp
    | some mi => 
      cases mi with
      | mk m i => 
        by_cases h : x < m <;> simp [h]

theorem torchMax_spec {α : Type} [LinearOrderedCommRing α] (l : List α)
    (h : l ≠ []) :
    ∃ m i, torchMax l = some (m, i) ∧ i < l.length ∧ l.getD i 0 = m ∧
      (∀ j < l.length, l.getD j 0 ≤ m) ∧ (∀ j < i, l.getD j 0 < m) := by
  induction l with
  | nil => exact absurd rfl h
  | cons x xs ih =>
    by_cases hnil : xs = []
    · subst hnil
      refine ⟨x, 0, by simp [torchMax], by simp, by simp, ?_, ?_⟩
      · intro j hj
        have hj0 : j = 0 := by simpa using Nat.lt_one_iff.mp (by simpa using hj)
        subst hj0; simp
      · intro j hj; exact absurd hj (Nat.not_lt_zero j)
    · obtain ⟨m, i, heq, hlt, hget, hmax, hfirst⟩ := ih hnil
      have hunf : torchMax (x :: xs) =
          if x < m then some (m, i + 1) else some (x, 0) := by
        simp [torchMax, heq]
      by_cases hcmp : x < m
      · refine ⟨m, i + 1, by rw [hunf, if_pos hcmp], ?_, ?_, ?_, ?_⟩
        · simpa using Nat.succ_lt_succ hlt
        · simpa using hget
        · intro j hj
          cases j with
          | zero => simpa using le_of_lt hcmp
          | succ j' =>
            have := hmax j' (by simpa using Nat.lt_of_succ_lt_succ hj)
            simpa using this
        · intro j hj
          cases j with
          | zero => simpa using hcmp
          | succ j' =>
            have := hfirst j' (Nat.lt_of_succ_lt_succ hj)
            simpa using this
      · refine ⟨x, 0, by rw [hunf, if_neg hcmp], by simp, by simp, ?_, ?_⟩
        · intro j hj
          cases j with
          | zero => simp
          | succ j' =>
            have h1 := hmax j' (by simpa using Nat.lt_of_succ_lt_succ hj)
            have h2 : m ≤ x := not_lt.mp hcmp
            simpa using le_trans h1 h2
        · intro j hj; exact absurd hj (Nat.not_lt_zero j)

theorem torchArgmax_spec {α : Type} [LinearOrderedCommRing α] (l : List α)
    (h : l ≠ []) :
    torchArgmax l < l.length ∧
      (∀ j < l.length, l.getD j 0 ≤ l.getD (torchArgmax l) 0) ∧
      (∀ j < torchArgmax l, l.getD j 0 < l.getD (torchArgmax l) 0) := by
  obtain ⟨m, i, heq, hlt, hget, hmax, hfirst⟩ := torchMax_spec l h
  have hi : torchArgmax l = i := by simp [torchArgmax, heq]
  rw [hi, hget]
  exact ⟨hlt, hmax, hfirst⟩

theorem sampleGo_succ {α σ : Type} [LinearOrderedCommRing α]
    (M : DecoderRNN α σ) (n : Nat) (p : List α × σ) :
    M.sampleGo (n + 1) p =
      if M.stepPred p = 1 then [1]
      else M.stepPred p :: M.sampleGo n (M.nextPair p) := by
  by_cases h : M.stepPred p = 1 <;> simp [DecoderRNN.sampleGo, h]

theorem predAt_zero {α σ : Type} [LinearOrderedCommRing α]
    (M : DecoderRNN α σ) (p : List α × σ) : M.predAt p 0 = M.stepPred p := rfl

theorem predAt_succ {α σ : Type} [LinearOrderedCommRing α]
    (M : DecoderRNN α σ) (p : List α × σ) (k : Nat) :
    M.predAt p (k + 1) = M.predAt (M.nextPair p) k := by
  simp [DecoderRNN.predAt, DecoderRNN.scoresAt, Function.iterate_succ_apply]

theorem sampleGo_length_le {α σ : Type} [LinearOrderedCommRing α]
    (M : DecoderRNN α σ) (n : Nat) (p : List α × σ) :
    (M.sampleGo n p).length ≤ n := by
  induction n generalizing p with
  | zero => simp [DecoderRNN.sampleGo]
  | succ n ih =>
    rw [sampleGo_succ]
    split
    · simp
    · simpa using Nat.succ_le_succ (ih _)

theorem sampleGo_length_pos {α σ : Type} [LinearOrderedCommRing α]
    (M : DecoderRNN α σ) (n : Nat) (p : List α × σ) (hn : 1 ≤ n) :
    1 ≤ (M.sampleGo n p).length := by
  obtain ⟨n', rfl⟩ : ∃ n', n = n' + 1 := ⟨n - 1, by omega⟩
  rw [sampleGo_succ]
  split <;> simp

theorem sampleGo_eq_of_no_end {α σ : Type} [LinearOrderedCommRing α]
    (M : DecoderRNN α σ) (n : Nat) (p : List α × σ)
    (h : ∀ j < n, M.predAt p j ≠ 1) :
    M.sampleGo n p = (List.range n).map (M.predAt p) := by
  induction n generalizing p with
  | zero => simp [DecoderRNN.sampleGo]
  | succ n ih =>
    have h0 : M.stepPred p ≠ 1 := by
      have := h 0 (Nat.succ_pos n); rwa [predAt_zero] at this
    rw [sampleGo_succ, if_neg h0, List.range_succ_eq_map, List.map_cons,
      List.map_map]
    have hrest : ∀ j < n, M.predAt (M.nextPair p) j ≠ 1 := by
      intro j hj
      have := h (j + 1) (Nat.succ_lt_succ hj)
      rwa [predAt_succ] at this
    rw [ih (M.nextPair p) hrest]
    refine congrArg₂ List.cons (predAt_zero M p).symm ?_
    refine List.map_congr_left ?_
    intro j _
    exact (predAt_succ M p j).symm

theorem sampleGo_eq_of_end {α σ : Type} [LinearOrderedCommRing α]
    (M : DecoderRNN α σ) (n k : Nat) (p : List α × σ) (hk : k < n)
    (hbefore : ∀ j < k, M.predAt p j ≠ 1) (hend : M.predAt p k = 1) :
    M.sampleGo n p = (List.range (k + 1)).map (M.predAt p) := by
  induction k generalizing p n with
  | zero =>
    obtain ⟨n', rfl⟩ : ∃ n', n = n' + 1 := ⟨n - 1, by omega⟩
    rw [predAt_zero] at hend
    rw [sampleGo_succ, if_pos hend]
    simp [List.range_succ, predAt_zero, hend]
  | succ k ih =>
    obtain ⟨n', rfl⟩ : ∃ n', n = n' + 1 := ⟨n - 1, by omega⟩
    have h0 : M.stepPred p ≠ 1 := by
      have := hbefore 0 (Nat.succ_pos k); rwa [predAt_zero] at this
    rw [sampleGo_succ, if_neg h0]
    have hrest := ih n' (M.nextPair p) (by omega)
      (fun j hj => by
        have := hbefore (j + 1) (Nat.succ_lt_succ hj)
        rwa [predAt_succ] at this)
      (by rw [← predAt_succ]; exact hend)
    rw [hrest]
    conv_rhs => rw [List.range_succ_eq_map, List.map_cons, List.map_map]
    refine congrArg₂ List.cons (predAt_zero M p).symm ?_
    refine List.map_congr_left ?_
    intro j _
    exact (predAt_succ M p j).symm

theorem sampleGo_getD {α σ : Type} [LinearOrderedCommRing α]
    (M : DecoderRNN α σ) (n : Nat) (p : List α × σ) (k : Nat)
    (hk : k < (M.sampleGo n p).length) :
    (M.sampleGo n p).getD k 0 = M.predAt p k := by
  induction n generalizing p k with
  | zero => simp [DecoderRNN.sampleGo] at hk
  | succ n ih =>
    rw [sampleGo_succ] at hk ⊢
    by_cases h : M.stepPred p = 1
    · rw [if_pos h] at hk ⊢
      have hk0 : k = 0 := by simpa using Nat.lt_one_iff.mp (by simpa using hk)
      subst hk0
      simp [predAt_zero, h]
    · rw [if_neg h] at hk ⊢
      cases k with
      | zero => simp [predAt_zero]
      | succ k' =>
        rw [predAt_succ, List.getD_cons_succ]
        exact ih (M.nextPair p) k' (by simpa using Nat.lt_of_succ_lt_succ hk)

theorem sampleGo_one_only_last {α σ : Type} [LinearOrderedCommRing α]
    (M : DecoderRNN α σ) (n : Nat) (p : List α × σ) (k : Nat)
    (hk : k + 1 < (M.sampleGo n p).length) :
    (M.sampleGo n p).getD k 0 ≠ 1 := by
  induction n generalizing p k with
  | zero => simp [DecoderRNN.sampleGo] at hk
  | succ n ih =>
    rw [sampleGo_succ] at hk ⊢
    by_cases h : M.stepPred p = 1
    · rw [if_pos h] at hk
      simp at hk
    · rw [if_neg h] at hk ⊢
      cases k with
      | zero => simpa using h
      | succ k' =>
        rw [List.getD_cons_succ]
        exact ih (M.nextPair p) k' (by simpa using Nat.lt_of_succ_lt_succ hk)

theorem linearApply_length {α : Type} [LinearOrderedCommRing α]
    (W : List (List α)) (b : List α) (x : List α) :
    (linearApply W b x).length = min W.length b.length := by
  simp [linearApply]

theorem stepScores_length {α σ : Type} [LinearOrderedCommRing α]
    (M : DecoderRNN α σ) (p : List α × σ) (V : Nat)
    (hW : M.linear_fc_weight.length = V) (hb : M.linear_fc_bias.length = V) :
    (M.stepScores p).length = V := by
  simp [DecoderRNN.stepScores, linearApply_length, hW, hb]

theorem scoresAt_length {α σ : Type} [LinearOrderedCommRing α]
    (M : DecoderRNN α σ) (p : List α × σ) (k : Nat) (V : Nat)
    (hW : M.linear_fc_weight.length = V) (hb : M.linear_fc_bias.length = V) :
    (M.scoresAt p k).length = V := by
  simp [DecoderRNN.scoresAt, stepScores_length _ _ V hW hb]

theorem stepPred_lt {α σ : Type} [LinearOrderedCommRing α]
    (M : DecoderRNN α σ) (p : List α × σ) (V : Nat)
    (hW : M.linear_fc_weight.length = V) (hb : M.linear_fc_bias.length = V)
    (hV : 0 < V) : M.stepPred p < V := by
  have hlen := stepScores_length M p V hW hb
  have hne : M.stepScores p ≠ [] := by
    intro h; rw [h] at hlen; simp at hlen; omega
  have := (torchArgmax_spec (M.stepScores p) hne).1
  rw [hlen] at this
  exact this

theorem sampleGo_mem_lt {α σ : Type} [LinearOrderedCommRing α]
    (M : DecoderRNN α σ) (n : Nat) (p : List α × σ) (V : Nat)
    (hW : M.linear_fc_weight.length = V) (hb : M.linear_fc_bias.length = V)
    (hV : 0 < V) : ∀ t ∈ M.sampleGo n p, t < V := by
  induction n generalizing p with
  | zero => simp [DecoderRNN.sampleGo]
  | succ n ih =>
    rw [sampleGo_succ]
    by_cases h : M.stepPred p = 1
    · rw [if_pos h]
      intro t ht
      have ht1 : t = 1 := by simpa using ht
      subst ht1
      rw [← h]
      exact stepPred_lt M p V hW hb hV
    · rw [if_neg h]
      intro t ht
      rcases List.mem_cons.mp ht with h1 | h2
      · subst h1; exact stepPred_lt M p V hW hb hV
      · exact ih (M.nextPair p) t h2

theorem lstmSeq_length {α σ : Type} [LinearOrderedCommRing α]
    (M : DecoderRNN α σ) (xs : List (List α)) (s : σ) :
    (lstmSeq M xs s).length = xs.length := by
  induction xs generalizing s with
  | nil => simp [lstmSeq]
  | cons x xs ih => simp [lstmSeq, ih]

theorem forward_length {α σ : Type} [LinearOrderedCommRing α]
    (M : DecoderRNN α σ) (features : List α) (captions : List Nat)
    (h : 1 ≤ captions.length) :
    (M.forward features captions).length = captions.length := by
  simp [DecoderRNN.forward, lstmSeq_length, List.length_dropLast]
  omega

/-- Modelled from the spec: §4.2 step 4 describes the recurrent pass as a
single left-to-right traversal threading the state explicitly, state
initialized to zero, collecting one hidden output per timestep.  Stated
with a fold to compare against the source's `lstmSeq`. -/
def runRecurrentSpec {α σ : Type} (M : DecoderRNN α σ)
    (inputsSeq : List (List α)) : List (List α) :=
  (inputsSeq.foldl
    (fun acc x =>
      let hs := M.lstmStep x acc.2
      (acc.1 ++ [hs.1], hs.2))
    (([] : List (List α)), M.lstmZero)).1

/-- Modelled from the spec: the §4.2 algorithm word for word — drop the final
ground-truth token, embed the remaining tokens, prepend the image embedding as
the first timestep, run the whole sequence through the recurrence in a single
zero-initialized pass, and project every hidden output to vocabulary scores. -/
def DecoderRNN.forwardSpec {α σ : Type} [LinearOrderedCommRing α]
    (M : DecoderRNN α σ) (features : List α) (captions : List Nat) :
    List (List α) :=
  (runRecurrentSpec M
      (features :: (captions.dropLast.map (embedLookup M.word_embedding_layer)))).map
    (linearApply M.linear_fc_weight M.linear_fc_bias)

theorem lstmFold_eq {α σ : Type} [LinearOrderedCommRing α]
    (M : DecoderRNN α σ) (xs : List (List α)) (s : σ) (acc : List (List α)) :
    (xs.foldl
      (fun acc x =>
        let hs := M.lstmStep x acc.2
        (acc.1 ++ [hs.1], hs.2))
      (acc, s)).1 = acc ++ lstmSeq M xs s := by
  induction xs generalizing s acc with
  | nil => simp [lstmSeq]
  | cons x xs ih =>
    simp only [List.foldl_cons, lstmSeq]
    rw [ih]
    simp

theorem runRecurrentSpec_eq {α σ : Type} [LinearOrderedCommRing α]
    (M : DecoderRNN α σ) (xs : List (List α)) :
    runRecurrentSpec M xs = lstmSeq M xs M.lstmZero := by
  simpa [runRecurrentSpec] using lstmFold_eq M xs M.lstmZero []

/-- Embedding of `EncoderCNN`: the backbone (pretrained resnet without its
classification head, pooled and flattened, consumed as an opaque feature
extractor) is a function from images to feature vectors; `requires_grad`
flags of the backbone's and the projection's parameter tensors are carried
explicitly so that freezing is observable. -/
structure EncoderCNN (Img : Type) (α : Type) where
  resnet : Img → List α
  resnetParamGrads : List Bool
  embed_weight : List (List α)
  embed_bias : List α
  embedParamGrads : List Bool

/-- Embedding of `EncoderCNN.__init__`: every parameter of the pretrained
backbone gets `requires_grad_(False)`; the fresh `nn.Linear` projection
contributes its weight and bias tensors, created trainable. -/
def EncoderCNN.init {Img α : Type} (backbone : Img → List α)
    (pretrainedGrads : List Bool) (W : List (List α)) (b : List α) :
    EncoderCNN Img α where
  resnet := backbone
  resnetParamGrads := pretrainedGrads.map (fun _ => false)
  embed_weight := W
  embed_bias := b
  embedParamGrads := [true, true]

/-- Embedding of `EncoderCNN.forward` on a batch: backbone features per image
(the `view` flattening is shape bookkeeping folded into the backbone), then
the linear projection. -/
def EncoderCNN.forward {Img α : Type} [LinearOrderedCommRing α]
    (E : EncoderCNN Img α) (images : List Img) : List (List α) :=
  images.map (fun im => linearApply E.embed_weight E.embed_bias (E.resnet im))

/-- One full `forward` call viewed with explicit module state: it returns the
outputs and the module as left behind by the call. -/
def EncoderCNN.forwardCall {Img α : Type} [LinearOrderedCommRing α]
    (E : EncoderCNN Img α) (images : List Img) :
    List (List α) × EncoderCNN Img α :=
  (E.forward images, E)

/-- Relational semantics of the sampling loop, mirroring the spec's §4.3 state
machine on `(current_input, recurrent_state)` with a remaining-step budget:
stop on exhausted budget, stop right after emitting the end token `1`, and
otherwise emit the greedy prediction and continue from the next pair. -/
inductive SampleRun {α σ : Type} [LinearOrderedCommRing α]
    (M : DecoderRNN α σ) : Nat → List α × σ → List Nat → Prop
  | budgetExhausted (p : List α × σ) : SampleRun M 0 p []
  | endToken (n : Nat) (p : List α × σ) :
      M.stepPred p = 1 → SampleRun M (n + 1) p [1]
  | cont (n : Nat) (p : List α × σ) (out : List Nat) :
      M.stepPred p ≠ 1 → SampleRun M n (M.nextPair p) out →
      SampleRun M (n + 1) p (M.stepPred p :: out)

theorem sampleRun_det {α σ : Type} [LinearOrderedCommRing α]
    (M : DecoderRNN α σ) (n : Nat) (p : List α × σ) (out₁ out₂ : List Nat)
    (h1 : SampleRun M n p out₁) (h2 : SampleRun M n p out₂) : out₁ = out₂ := by
  induction h1 generalizing out₂ with
  | budgetExhausted p => cases h2; rfl
  | endToken n p h =>
    cases h2 with
    | endToken _ _ _ => rfl
    | cont _ _ _ hne _ => exact absurd h hne
  | cont n p out hne hrun ih =>
    cases h2 with
    | endToken _ _ h => exact absurd h hne
    | cont _ _ out' _ hrun' => rw [ih out' hrun']

theorem sampleRun_sampleGo {α σ : Type} [LinearOrderedCommRing α]
    (M : DecoderRNN α σ) (n : Nat) (p : List α × σ) :
    SampleRun M n p (M.sampleGo n p) := by
  induction n generalizing p with
  | zero => exact SampleRun.budgetExhausted p
  | succ n ih =>
    rw [sampleGo_succ]
    by_cases h : M.stepPred p = 1
    · rw [if_pos h]
      exact SampleRun.endToken n p h
    · rw [if_neg h]
      exact SampleRun.cont n p _ h (ih (M.nextPair p))

/-- C1: during a `DecoderRNN.sample` call, if the greedy-argmax prediction at
some reached step `k` equals the end-token index `1` (the earlier steps did
not predict `1`, so the loop reaches step `k`), sampling stops immediately
after appending that step's prediction: the returned list is exactly the
predictions of steps `0..k`, its last element is `1`, and its length is
`k + 1` — no further elements follow. -/
theorem claim1_sample_stops_at_end_token {α σ : Type} [LinearOrderedCommRing α]
    (M : DecoderRNN α σ) (inputs : List α) (states : Option σ)
    (max_len k : Nat) (hk : k < max_len)
    (hbefore : ∀ j < k, M.predAt (M.initPair inputs states) j ≠ 1)
    (hend : M.predAt (M.initPair inputs states) k = 1) :
    M.sample inputs states max_len =
        (List.range (k + 1)).map (M.predAt (M.initPair inputs states)) ∧
      (M.sample inputs states max_len).getLast? = some 1 ∧
      (M.sample inputs states max_len).length = k + 1 := by
  have hs : M.sample inputs states max_len =
      (List.range (k + 1)).map (M.predAt (M.initPair inputs states)) :=
    sampleGo_eq_of_end M max_len k (M.initPair inputs states) hk hbefore hend
  refine ⟨hs, ?_, ?_⟩
  · rw [hs, List.range_succ, List.map_append,
      List.getLast?_append_of_ne_nil _ (by simp)]
    simp [hend]
  · rw [hs]
    simp

/-- C1 witness: a concrete decoder whose first prediction is the end token. -/
theorem claim1_witness :
    decAlwaysEnd.sample [1] none 20 =
        (List.range 1).map (decAlwaysEnd.predAt (decAlwaysEnd.initPair [1] none)) ∧
      (decAlwaysEnd.sample [1] none 20).getLast? = some 1 ∧
      (decAlwaysEnd.sample [1] none 20).length = 1 :=
  claim1_sample_stops_at_end_token decAlwaysEnd [1] none 20 0 (by decide)
    (fun j hj => absurd hj (Nat.not_lt_zero j)) (by decide)

/-- C2 counterexample: the claim quantifies over every `max_len`, but at
`max_len = 0` the loop body never runs and `sample` returns the empty list,
whose length is not at least `1`. -/
theorem claim2_counterexample :
    ¬ 1 ≤ (decAlwaysZero.sample [1] none 0).length := by decide

/-- C2 (amended): for every weight snapshot, seed input, initial state and
`max_len ≥ 1`, `DecoderRNN.sample` terminates (it is a total function whose
loop runs at most `max_len` iterations) and returns a plain list of integers
whose length is at least `1` and at most `max_len`; the upper bound holds for
every `max_len`, the lower bound needs `max_len ≥ 1`. -/
theorem claim2_sample_length_bounds {α σ : Type} [LinearOrderedCommRing α]
    (M : DecoderRNN α σ) (inputs : List α) (states : Option σ)
    (max_len : Nat) (h : 1 ≤ max_len) :
    1 ≤ (M.sample inputs states max_len).length ∧
      (M.sample inputs states max_len).length ≤ max_len :=
  ⟨sampleGo_length_pos M max_len (M.initPair inputs states) h,
    sampleGo_length_le M max_len (M.initPair inputs states)⟩

/-- C2 witness: the bounds at the Python default `max_len = 20`. -/
theorem claim2_witness :
    1 ≤ (decAlwaysZero.sample [1] none 20).length ∧
      (decAlwaysZero.sample [1] none 20).length ≤ 20 :=
  claim2_sample_length_bounds decAlwaysZero [1] none 20 (by decide)

/-- C3: if no step of a `DecoderRNN.sample` call predicts the end token `1`
within `max_len` steps, the returned list has length exactly `max_len`; and
in general only the first prediction equal to `1` stops the loop, so no
element of the returned list equals `1` except possibly the final one. -/
theorem claim3_sample_full_length_and_end_token_final {α σ : Type}
    [LinearOrderedCommRing α] (M : DecoderRNN α σ) (inputs : List α)
    (states : Option σ) (max_len : Nat) :
    ((∀ j < max_len, M.predAt (M.initPair inputs states) j ≠ 1) →
        (M.sample inputs states max_len).length = max_len) ∧
      (∀ k, k + 1 < (M.sample inputs states max_len).length →
        (M.sample inputs states max_len).getD k 0 ≠ 1) := by
  constructor
  · intro h
    have hs := sampleGo_eq_of_no_end M max_len (M.initPair inputs states) h
    rw [DecoderRNN.sample, hs]
    simp
  · intro k hk
    exact sampleGo_one_only_last M max_len (M.initPair inputs states) k hk

/-- C3 witness: a decoder that never predicts `1` fills all `3` steps, and
its non-final elements differ from `1`. -/
theorem claim3_witness :
    (decAlwaysZero.sample [1] none 3).length = 3 ∧
      (decAlwaysZero.sample [1] none 3).getD 0 0 ≠ 1 :=
  ⟨(claim3_sample_full_length_and_end_token_final decAlwaysZero [1] none 3).1
      (by decide),
    (claim3_sample_full_length_and_end_token_final decAlwaysZero [1] none 3).2
      0 (by decide)⟩

/-- C4: for every features batch and caption tensor (a batch of rows of one
common length `seq_len ≥ 1`), `DecoderRNN.forward` produces one output row per
batch entry, and every output row has time-axis length `seq_len`: dropping the
last caption token and prepending the image-embedding seed step keep lengths
equal.  A caption of length 2 (start token plus end token) is the instance
`seq_len = 2`, exercised by the witness. -/
theorem claim4_forward_length_eq_caption_length {α σ : Type}
    [LinearOrderedCommRing α] (M : DecoderRNN α σ)
    (featuresB : List (List α)) (captionsB : List (List Nat)) (seq_len : Nat)
    (hbatch : featuresB.length = captionsB.length)
    (hrows : ∀ c ∈ captionsB, c.length = seq_len) (hseq : 1 ≤ seq_len) :
    (M.forwardBatch featuresB captionsB).length = captionsB.length ∧
      ∀ out ∈ M.forwardBatch featuresB captionsB, out.length = seq_len := by
  constructor
  · simp [DecoderRNN.forwardBatch, List.length_zip, hbatch]
  · intro out hout
    obtain ⟨fc, hfc, rfl⟩ := List.mem_map.mp hout
    have hc : fc.2 ∈ captionsB := (List.of_mem_zip hfc).2
    have hlen : fc.2.length = seq_len := hrows fc.2 hc
    rw [forward_length M fc.1 fc.2 (by omega), hlen]

/-- C4 witness: batch of one image embedding with the caption
`[start, end] = [0, 1]` of length 2 yields one output row of length 2. -/
theorem claim4_witness :
    (decAlwaysZero.forwardBatch [[1]] [[0, 1]]).length = 1 ∧
      ∀ out ∈ decAlwaysZero.forwardBatch [[1]] [[0, 1]], out.length = 2 :=
  claim4_forward_length_eq_caption_length decAlwaysZero [[1]] [[0, 1]] 2
    (by decide) (by decide) (by decide)

/-- C5: `DecoderRNN.forward` implements teacher forcing exactly as the spec
describes it: it agrees with `DecoderRNN.forwardSpec`, the word-for-word
transcription of the spec's algorithm (drop the final ground-truth token,
embed the rest, prepend the image embedding as the first timestep, run the
whole sequence through the recurrence in one pass from the zero state, and
project every hidden output to vocabulary scores). -/
theorem claim5_forward_is_teacher_forcing {α σ : Type}
    [LinearOrderedCommRing α] (M : DecoderRNN α σ) (features : List α)
    (captions : List Nat) :
    M.forward features captions = M.forwardSpec features captions := by
  rw [DecoderRNN.forward, DecoderRNN.forwardSpec, runRecurrentSpec_eq]

/-- C5 witness: the two formulations agree on a concrete model and caption. -/
theorem claim5_witness :
    decAlwaysZero.forward [1] [0, 1] = decAlwaysZero.forwardSpec [1] [0, 1] :=
  claim5_forward_is_teacher_forcing decAlwaysZero [1] [0, 1]

/-- C6: at every step of `DecoderRNN.sample`, the emitted token is `torchMax`'s
index over that step's vocabulary scores, i.e. the index of the maximum score,
with ties broken deterministically by the lowest index: scores strictly below
it never precede it, every score is at most the selected one. -/
theorem claim6_sample_emits_greedy_argmax {α σ : Type}
    [LinearOrderedCommRing α] (M : DecoderRNN α σ) (inputs : List α)
    (states : Option σ) (max_len k V : Nat)
    (hW : M.linear_fc_weight.length = V) (hb : M.linear_fc_bias.length = V)
    (hV : 0 < V) (hk : k < (M.sample inputs states max_len).length) :
    (M.sample inputs states max_len).getD k 0 =
        torchArgmax (M.scoresAt (M.initPair inputs states) k) ∧
      torchArgmax (M.scoresAt (M.initPair inputs states) k) <
        (M.scoresAt (M.initPair inputs states) k).length ∧
      (∀ j < (M.scoresAt (M.initPair inputs states) k).length,
        (M.scoresAt (M.initPair inputs states) k).getD j 0 ≤
          (M.scoresAt (M.initPair inputs states) k).getD
            (torchArgmax (M.scoresAt (M.initPair inputs states) k)) 0) ∧
      (∀ j < torchArgmax (M.scoresAt (M.initPair inputs states) k),
        (M.scoresAt (M.initPair inputs states) k).getD j 0 <
          (M.scoresAt (M.initPair inputs states) k).getD
            (torchArgmax (M.scoresAt (M.initPair inputs states) k)) 0) := by
  have hgot : (M.sample inputs states max_len).getD k 0 =
      torchArgmax (M.scoresAt (M.initPair inputs states) k) :=
    sampleGo_getD M max_len (M.initPair inputs states) k hk
  have hlen := scoresAt_length M (M.initPair inputs states) k V hW hb
  have hne : M.scoresAt (M.initPair inputs states) k ≠ [] := by
    intro hcon
    rw [hcon] at hlen
    simp at hlen
    omega
  obtain ⟨h1, h2, h3⟩ := torchArgmax_spec _ hne
  exact ⟨hgot, h1, h2, h3⟩

/-- C6 witness: the first emitted token of a concrete run is the greedy argmax
of the first step's scores, which dominates every score. -/
theorem claim6_witness :
    (decAlwaysZero.sample [1] none 3).getD 0 0 =
        torchArgmax (decAlwaysZero.scoresAt (decAlwaysZero.initPair [1] none) 0) ∧
      torchArgmax (decAlwaysZero.scoresAt (decAlwaysZero.initPair [1] none) 0) <
        (decAlwaysZero.scoresAt (decAlwaysZero.initPair [1] none) 0).length ∧
      (∀ j < (decAlwaysZero.scoresAt (decAlwaysZero.initPair [1] none) 0).length,
        (decAlwaysZero.scoresAt (decAlwaysZero.initPair [1] none) 0).getD j 0 ≤
          (decAlwaysZero.scoresAt (decAlwaysZero.initPair [1] none) 0).getD
            (torchArgmax (decAlwaysZero.scoresAt
              (decAlwaysZero.initPair [1] none) 0)) 0) ∧
      (∀ j < torchArgmax (decAlwaysZero.scoresAt
          (decAlwaysZero.initPair [1] none) 0),
        (decAlwaysZero.scoresAt (decAlwaysZero.initPair [1] none) 0).getD j 0 <
          (decAlwaysZero.scoresAt (decAlwaysZero.initPair [1] none) 0).getD
            (torchArgmax (decAlwaysZero.scoresAt
              (decAlwaysZero.initPair [1] none) 0)) 0) :=
  claim6_sample_emits_greedy_argmax decAlwaysZero [1] none 3 0 2
    (by decide) (by decide) (by decide) (by decide)

/-- C7: both decoder modes are deterministic.  Any two complete runs of the
sampling state machine from the same weight snapshot, step budget and initial
`(input, state)` pair produce identical output sequences; `sample` realizes
such a run; and `forward` yields identical score tensors on equal inputs. -/
theorem claim7_decoder_deterministic {α σ : Type} [LinearOrderedCommRing α]
    (M : DecoderRNN α σ) :
    (∀ (n : Nat) (p : List α × σ) (out₁ out₂ : List Nat),
        SampleRun M n p out₁ → SampleRun M n p out₂ → out₁ = out₂) ∧
      (∀ (inputs : List α) (states : Option σ) (max_len : Nat),
        SampleRun M max_len (M.initPair inputs states)
          (M.sample inputs states max_len)) ∧
      (∀ (f₁ f₂ : List α) (c₁ c₂ : List Nat), f₁ = f₂ → c₁ = c₂ →
        M.forward f₁ c₁ = M.forward f₂ c₂) := by
  refine ⟨fun n p out₁ out₂ h1 h2 => sampleRun_det M n p out₁ out₂ h1 h2,
    fun inputs states max_len =>
      sampleRun_sampleGo M max_len (M.initPair inputs states),
    fun f₁ f₂ c₁ c₂ hf hc => by rw [hf, hc]⟩

/-- C7 witness: an explicitly constructed two-step run of the state machine
forces the concrete sample output `[0, 0]` through determinism, and `forward`
agrees with itself on a concrete caption. -/
theorem claim7_witness :
    decAlwaysZero.sample [1] none 2 = [0, 0] ∧
      decAlwaysZero.forward [1] [0, 1] = decAlwaysZero.forward [1] [0, 1] := by
  have hrun : SampleRun decAlwaysZero 2 (decAlwaysZero.initPair [1] none)
      [0, 0] := by
    refine SampleRun.cont 1 _ [0] (by decide) ?_
    refine SampleRun.cont 0 _ [] (by decide) ?_
    exact SampleRun.budgetExhausted _
  exact ⟨(claim7_decoder_deterministic decAlwaysZero).1 2
      (decAlwaysZero.initPair [1] none) _ _
      ((claim7_decoder_deterministic decAlwaysZero).2.1 [1] none 2) hrun,
    (claim7_decoder_deterministic decAlwaysZero).2.2 [1] [1] [0, 1] [0, 1]
      rfl rfl⟩

/-- Concrete encoder used to evaluate the theorems: images are `Unit`, the
backbone always extracts the feature vector `[1]`, with one (frozen)
backbone parameter and a `1 × 1` projection. -/
def encUnit : EncoderCNN Unit ℤ :=
  EncoderCNN.init (fun _ => [1]) [true] [[2]] [3]

/-- C8: for every valid configuration (projection of `embed_size` rows with an
`embed_size`-long bias, as `nn.Linear(..., embed_size)` creates) and every
image batch of size at least `1`, `EncoderCNN.forward` returns one embedding
row per image, each of length `embed_size`. -/
theorem claim8_encoder_output_shape {Img α : Type} [LinearOrderedCommRing α]
    (E : EncoderCNN Img α) (images : List Img) (embed_size : Nat)
    (hW : E.embed_weight.length = embed_size)
    (hb : E.embed_bias.length = embed_size) (_hbatch : 1 ≤ images.length) :
    (E.forward images).length = images.length ∧
      ∀ row ∈ E.forward images, row.length = embed_size := by
  constructor
  · simp [EncoderCNN.forward]
  · intro row hrow
    obtain ⟨im, _, rfl⟩ := List.mem_map.mp hrow
    simp [linearApply_length, hW, hb]

/-- C8 witness: a batch of one image through the concrete encoder. -/
theorem claim8_witness :
    (encUnit.forward [()]).length = 1 ∧
      ∀ row ∈ encUnit.forward [()], row.length = 1 :=
  claim8_encoder_output_shape encUnit [()] 1 (by decide) (by decide)
    (by decide)

/-- C9: after `EncoderCNN` construction every backbone parameter carries
`requires_grad = false` (excluded from gradient updates) whatever its prior
flags were, the only trainable parameters are the final linear projection's
(all created with `requires_grad = true`), and a `forward` call leaves the
module — hence all the flags — unchanged. -/
theorem claim9_backbone_frozen {Img α : Type} [LinearOrderedCommRing α]
    (backbone : Img → List α) (grads : List Bool) (W : List (List α))
    (b : List α) (images : List Img) :
    (∀ g ∈ (EncoderCNN.init backbone grads W b).resnetParamGrads, g = false) ∧
      (∀ g ∈ (EncoderCNN.init backbone grads W b).embedParamGrads, g = true) ∧
      ((EncoderCNN.init backbone grads W b).forwardCall images).2 =
        EncoderCNN.init backbone grads W b := by
  refine ⟨?_, ?_, rfl⟩
  · intro g hg
    obtain ⟨_, _, rfl⟩ := List.mem_map.mp hg
    rfl
  · intro g hg
    simpa [EncoderCNN.init] using hg

/-- C9 witness: the concrete encoder's backbone flags are all `false`, its
projection flags all `true`, and a forward call leaves it unchanged. -/
theorem claim9_witness :
    (∀ g ∈ (EncoderCNN.init (fun _ : Unit => [(1 : ℤ)]) [true] [[2]]
        [3]).resnetParamGrads, g = false) ∧
      (∀ g ∈ (EncoderCNN.init (fun _ : Unit => [(1 : ℤ)]) [true] [[2]]
        [3]).embedParamGrads, g = true) ∧
      ((EncoderCNN.init (fun _ : Unit => [(1 : ℤ)]) [true] [[2]]
        [3]).forwardCall [()]).2 =
        EncoderCNN.init (fun _ : Unit => [(1 : ℤ)]) [true] [[2]] [3] :=
  claim9_backbone_frozen (fun _ : Unit => [(1 : ℤ)]) [true] [[2]] [3] [()]

/-- C10: every element of the list returned by `DecoderRNN.sample` lies in
`[0, vocab_size)`: each emitted token is an argmax over a score vector of
width `vocab_size` (the linear head has `vocab_size` rows and biases, as
`nn.Linear(hidden_size, vocab_size)` creates), so no returned index can fall
outside the vocabulary. -/
theorem claim10_sample_tokens_in_vocab {α σ : Type} [LinearOrderedCommRing α]
    (M : DecoderRNN α σ) (inputs : List α) (states : Option σ)
    (max_len vocab_size : Nat)
    (hW : M.linear_fc_weight.length = vocab_size)
    (hb : M.linear_fc_bias.length = vocab_size) (hV : 0 < vocab_size) :
    ∀ t ∈ M.sample inputs states max_len, t < vocab_size :=
  sampleGo_mem_lt M max_len (M.initPair inputs states) vocab_size hW hb hV

/-- C10 witness: the first token of a concrete run is below the vocabulary
size `2`. -/
theorem claim10_witness :
    (decAlwaysZero.sample [1] none 3).headD 0 < 2 :=
  claim10_sample_tokens_in_vocab decAlwaysZero [1] none 3 2 (by decide)
    (by decide) (by decide) ((decAlwaysZero.sample [1] none 3).headD 0)
    (by decide)
